import Mathlib

/-
  Verification of the document segmentation engine of Smartdocs_AI
  (src/backend/text_chunker.py), shallowly embedded in Lean 4.

  Texts are modelled as List Char (Python str).  Fallible / possibly
  divergent operations return Option: none models a call that never
  returns (the token-window loop does not terminate for some
  configurations).
-/

-- Accumulator machine splitting a character list into its maximal
-- whitespace-free words; acc holds the current word reversed.
def wordsGo : List Char → List Char → List (List Char)
  | acc, [] => if acc = [] then [] else [acc.reverse]
  | acc, c :: cs =>
    if c.isWhitespace then
      if acc = [] then wordsGo [] cs else acc.reverse :: wordsGo [] cs
    else wordsGo (c :: acc) cs

/-- Modelled from the spec: the tiktoken tokenizer wrapped by the
Tokenizer Adapter (spec 4.1) is an external library, absent from the
repository.  It is modelled as a deterministic whitespace word
tokenizer: encode splits a text into its maximal whitespace-free words,
decode joins tokens with single spaces.  This satisfies the adapter
contract of spec 4.1: count of the empty text is 0, encoding is
deterministic, and re-encoding a decoded token sequence preserves the
token count. -/
def words (l : List Char) : List (List Char) := wordsGo [] l

-- decode of the word tokenizer: join tokens with a single space.
def joinWords : List (List Char) → List Char
  | [] => []
  | [w] => w
  | w :: ws => w ++ ' ' :: joinWords ws

-- TextChunker.count_tokens: len(self.encoding.encode(text)); the
-- `if not text: return 0` guard is subsumed (words [] = []).
def countTokens (l : List Char) : Nat := (words l).length

-- Python str.strip(): drop leading and trailing whitespace.
def stripChars (l : List Char) : List Char :=
  ((l.dropWhile Char.isWhitespace).reverse.dropWhile Char.isWhitespace).reverse

-- The guard `if not text or not text.strip()` used by every entry point.
def isBlankPy (l : List Char) : Bool := l = [] ∨ stripChars l = []

-- TextChunker instance state (text_chunker.py lines 23-45); the
-- encoding field itself is the fixed word tokenizer above, only the
-- requested profile name is carried.
structure Chunker where
  chunk_size : Nat
  chunk_overlap : Nat
  encoding_name : String
deriving DecidableEq

def chunkerDefault : Chunker := ⟨1000, 200, "cl100k_base"⟩

-- Python `override or default` on an Optional[int] argument
-- (text_chunker.py lines 80-81): None and 0 are falsy.
def orDefault (o : Option Nat) (d : Nat) : Nat :=
  match o with
  | none => d
  | some v => if v = 0 then d else v

/-
  The while loop of TextChunker.chunk_by_tokens (lines 89-106):

    while start_idx < total_tokens:
        end_idx = min(start_idx + chunk_size, total_tokens)
        chunks.append(decode(tokens[start_idx:end_idx]))
        if end_idx >= total_tokens: break
        start_idx += chunk_size - chunk_overlap

  The loop does not terminate when chunk_size <= chunk_overlap and the
  first window does not already reach the end (the Python start index
  then never increases past it), so it is embedded with explicit fuel;
  none models non-termination.
-/
def chunkLoop (tokens : List (List Char)) (size overlap : Nat) :
    Nat → Nat → Option (List (List (List Char)))
  | 0, _ => none
  | fuel + 1, start =>
    if start < tokens.length then
      let chunk := (tokens.drop start).take size
      if tokens.length ≤ start + size then some [chunk]
      else (chunkLoop tokens size overlap fuel (start + (size - overlap))).map
        (fun rest => chunk :: rest)
    else some []

-- TextChunker.chunk_by_tokens (lines 61-108).  The fuel countTokens
-- text + 1 is enough for every terminating run of the Python loop (the
-- start index strictly increases when chunk_overlap < chunk_size), so
-- a some result means the Python call returns it and a none result
-- means the Python call never returns.
def chunkByTokensPy (s : Chunker) (text : List Char)
    (sizeO overlapO : Option Nat) : Option (List (List Char)) :=
  if isBlankPy text then some []
  else
    let size := orDefault sizeO s.chunk_size
    let overlap := orDefault overlapO s.chunk_overlap
    let tokens := words text
    (chunkLoop tokens size overlap (tokens.length + 1) 0).map
      (fun l => l.map joinWords)

def isSentenceEnd (c : Char) : Bool := c = '.' || c = '!' || c = '?'

def isUpperAZ (c : Char) : Bool := 'A' ≤ c && c ≤ 'Z'

def accEndsSentence : List Char → Bool
  | [] => false
  | p :: _ => isSentenceEnd p

/-
  re.split with pattern (?<=[.!?])\s+(?=[A-Z]) (lines 129-130): the text
  is split at every maximal whitespace run immediately preceded by
  . ! or ? and immediately followed by an ASCII uppercase letter, the
  whitespace being consumed.  Embedded as a character machine: acc holds
  the current piece reversed; pend holds (reversed) a whitespace run
  seen after a sentence-ending character, not yet resolved into a
  boundary; pend = [] means no run is pending.
-/
def sentencesGo : List Char → List Char → List Char → List (List Char)
  | acc, pend, [] => [(pend ++ acc).reverse]
  | acc, pend, c :: cs =>
    if pend = [] then
      if accEndsSentence acc ∧ c.isWhitespace then sentencesGo acc [c] cs
      else sentencesGo (c :: acc) [] cs
    else
      if c.isWhitespace then sentencesGo acc (c :: pend) cs
      else if isUpperAZ c then acc.reverse :: sentencesGo [c] [] cs
      else sentencesGo (c :: (pend ++ acc)) [] cs

-- The sentence list of chunk_by_sentences (lines 129-134); re.split
-- always returns at least one piece, so the `if not sentences` fallback
-- of line 133 is unreachable.
def splitSentences (text : List Char) : List (List Char) :=
  sentencesGo [] [] text

/-
  The packing loop of TextChunker.chunk_by_sentences (lines 138-175),
  carrying current_chunk and current_tokens.  Delegation of an
  oversized sentence calls chunk_by_tokens with chunk_size=max_size and
  no overlap override (line 158), hence the instance overlap applies.
-/
def packLoop (s : Chunker) (maxSize : Nat) :
    List (List Char) → List Char → Nat → Option (List (List Char))
  | [], current, _ =>
    some (if stripChars current ≠ [] then [stripChars current] else [])
  | sentence :: rest, current, curTok =>
    let sentence := stripChars sentence
    if sentence = [] then packLoop s maxSize rest current curTok
    else
      let st := countTokens sentence
      if maxSize < st then
        let flushed := if current ≠ [] then [stripChars current] else []
        match chunkByTokensPy s sentence (some maxSize) none with
        | none => none
        | some large =>
          (packLoop s maxSize rest [] 0).map
            (fun more => flushed ++ large ++ more)
      else if maxSize < curTok + st ∧ current ≠ [] then
        (packLoop s maxSize rest (sentence ++ [' ']) st).map
          (fun more => stripChars current :: more)
      else
        packLoop s maxSize rest (current ++ sentence ++ [' ']) (curTok + st)

-- TextChunker.chunk_by_sentences (lines 110-178).
def chunkBySentencesPy (s : Chunker) (text : List Char)
    (maxO : Option Nat) : Option (List (List Char)) :=
  if isBlankPy text then some []
  else
    let maxSize := orDefault maxO s.chunk_size
    packLoop s maxSize (splitSentences text) [] 0

-- A structured chunk (lines 210-220).  chunk_id is a fresh uuid4 drawn
-- from an external random source and is not modelled.
structure Chunk where
  text : List Char
  chunk_index : Nat
  source_file : String
  page_number : Option Nat
  token_count : Nat
  character_count : Nat
  word_count : Nat
  chunking_strategy : String
deriving DecidableEq

def mkChunk (t : List Char) (idx : Nat) (f : String) (p : Option Nat)
    (strategy : String) : Chunk :=
  { text := t
    chunk_index := idx
    source_file := f
    page_number := p
    token_count := countTokens t
    character_count := t.length
    word_count := (words t).length
    chunking_strategy := strategy }

-- for idx, chunk_text in enumerate(raw_chunks) (line 209).
def buildChunks (f : String) (p : Option Nat) (strategy : String) :
    Nat → List (List Char) → List Chunk
  | _, [] => []
  | i, t :: ts => mkChunk t i f p strategy :: buildChunks f p strategy (i + 1) ts

-- TextChunker.create_chunks (lines 180-224).
def createChunks (s : Chunker) (text : List Char) (f : String)
    (p : Option Nat) (strategy : String) : Option (List Chunk) :=
  if isBlankPy text then some []
  else
    let rawO := if strategy = "sentences" then chunkBySentencesPy s text none
                else chunkByTokensPy s text none none
    rawO.map (buildChunks f p strategy 0)

-- TextChunker.calculate_optimal_chunk_size (lines 226-250).
def calculateOptimalChunkSize (documentLength : Nat) : Nat :=
  if documentLength ≤ 2000 then 500
  else if documentLength ≤ 10000 then 1000
  else if documentLength ≤ 50000 then 1500
  else 2000

-- The merged chunk built at lines 285-296.
def mkMerged (current next : Chunk) : Chunk :=
  let mergedText := current.text ++ ' ' :: next.text
  { text := mergedText
    chunk_index := current.chunk_index
    source_file := current.source_file
    page_number := current.page_number
    token_count := countTokens mergedText
    character_count := mergedText.length
    word_count := (words mergedText).length
    chunking_strategy := current.chunking_strategy ++ "_merged" }

-- TextChunker.merge_small_chunks (lines 252-306): one left-to-right
-- pass; a chunk of token_count >= min size is kept and the cursor
-- advances by one, otherwise it is merged with the next chunk (if any)
-- and the cursor advances by two.
def mergeSmallChunks (minSize : Nat) : List Chunk → List Chunk
  | [] => []
  | c :: rest =>
    if minSize ≤ c.token_count then c :: mergeSmallChunks minSize rest
    else
      match rest with
      | [] => [c]
      | next :: rest2 => mkMerged c next :: mergeSmallChunks minSize rest2

-- The instance state as of line 334 of chunk_document: lines 329-332
-- overwrite self.chunk_size with the Advisor value when auto_optimize
-- is set, otherwise the state is untouched.
def advisorState (s : Chunker) (text : List Char) (autoOptimize : Bool) : Chunker :=
  if autoOptimize then
    { s with chunk_size := calculateOptimalChunkSize (countTokens text) }
  else s

-- TextChunker.chunk_document (lines 308-347); the Chunker state is
-- threaded explicitly, the second component being the instance state
-- after the call (self.chunk_size is overwritten at line 332, so every
-- later read of self goes through advisorState).
def chunkDocument (s : Chunker) (text : List Char) (f : String)
    (p : Option Nat) (autoOptimize : Bool) :
    Option (List Chunk) × Chunker :=
  if isBlankPy text then (some [], s)
  else
    match createChunks (advisorState s text autoOptimize) text f p "sentences" with
    | none => (none, advisorState s text autoOptimize)
    | some chunks =>
      if autoOptimize ∧ chunks ≠ [] then
        (some (mergeSmallChunks
          (max 100 ((advisorState s text autoOptimize).chunk_size / 10)) chunks),
          advisorState s text autoOptimize)
      else (some chunks, advisorState s text autoOptimize)

-- TextChunker.chunk_multiple_pages (lines 349-381).  pages_dict is
-- embedded as an association list in the order dict iteration yields
-- its items, which for a Python dict is insertion order.
def chunkMultiplePages (f : String) (autoOptimize : Bool) :
    Chunker → List (Nat × List Char) → Option (List Chunk) × Chunker
  | s, [] => (some [], s)
  | s, (n, t) :: rest =>
    if isBlankPy t then chunkMultiplePages f autoOptimize s rest
    else
      match chunkDocument s t f (some n) autoOptimize with
      | (none, s1) => (none, s1)
      | (some cs, s1) =>
        match chunkMultiplePages f autoOptimize s1 rest with
        | (none, s2) => (none, s2)
        | (some more, s2) => (some (cs ++ more), s2)

-- The chunk-count formula stated by the spec (spec 4.2): number of
-- chunks = ceil((N - overlap) / (size - overlap)) when N > overlap,
-- else 1.  Stated with natural subtraction and ceiling division.
def specExpectedChunks (n size overlap : Nat) : Nat :=
  if n ≤ overlap then 1
  else (n - overlap + (size - overlap) - 1) / (size - overlap)

-- Concrete inputs used in witnesses and counterexamples.

def sampleText : List Char := "Hello world.".toList

-- a text of exactly n tokens under the word tokenizer
def nTokenText (n : Nat) : List Char := joinWords (List.replicate n ['a'])

def text1000 : List Char := 'a' :: (List.replicate 999 [' ', 'a']).flatten

-- a 90-word sentence followed by a 501-word sentence
def c7A : List Char := 'A' :: (List.replicate 88 [' ', 'a']).flatten ++ [' ', 'a', '.']

def c7B : List Char := 'B' :: (List.replicate 500 [' ', 'a']).flatten

def c7text : List Char := c7A ++ ' ' :: c7B

/- ------------------------------------------------------------------
   Lemmas about the word tokenizer
   ------------------------------------------------------------------ -/

theorem wordsGo_acc_ne_nil (l : List Char) :
    ∀ acc, acc ≠ [] → wordsGo acc l ≠ [] := by
  induction l with
  | nil =>
    intro acc h
    simp [wordsGo, h]
  | cons c cs ih =>
    intro acc h
    by_cases hc : c.isWhitespace
    · simp [wordsGo, hc, h]


    · simp only [wordsGo, hc, if_false]
      exact ih (c :: acc) (by simp)

theorem wordsGo_append_ws (c : Char) (hc : c.isWhitespace = true) (y : List Char) :
    ∀ (x acc : List Char), wordsGo acc (x ++ c :: y) = wordsGo acc (x ++ [c]) ++ words y := by
  intro x
  induction x with
  | nil =>
    intro acc
    by_cases h : acc = []
    · simp [wordsGo, hc, h, words]
    · simp [wordsGo, hc, h, words]
  | cons d ds ih =>
    intro acc
    by_cases hd : d.isWhitespace
    · by_cases h : acc = []
      · simp only [List.cons_append, wordsGo, hd, if_true, h, List.append_eq]
        exact ih []
      · simp only [List.cons_append, wordsGo, hd, if_true, h, if_false, List.append_eq]
        rw [ih []]
    · simp only [List.cons_append, wordsGo, hd, if_false, List.append_eq]
      exact ih (d :: acc)

theorem wordsGo_append_ws_single (c : Char) (hc : c.isWhitespace = true) :
    ∀ (x acc : List Char), wordsGo acc (x ++ [c]) = wordsGo acc x := by
  intro x
  induction x with
  | nil =>
    intro acc
    by_cases h : acc = [] <;> simp [wordsGo, hc, h]
  | cons d ds ih =>
    intro acc
    by_cases hd : d.isWhitespace
    · by_cases h : acc = []
      · simp only [List.cons_append, wordsGo, hd, if_true, h, if_false, List.append_eq]
        exact ih []
      · simp only [List.cons_append, wordsGo, hd, if_true, h, if_false, List.append_eq]
        rw [ih []]
    · simp only [List.cons_append, wordsGo, hd, if_false, List.append_eq]
      exact ih (d :: acc)

-- Splitting at a whitespace character: words (x ++ c :: y) = words x ++ words y.
theorem words_append_ws (c : Char) (hc : c.isWhitespace = true) (x y : List Char) :
    words (x ++ c :: y) = words x ++ words y := by
  unfold words
  rw [wordsGo_append_ws c hc y x [], wordsGo_append_ws_single c hc x []]
  rfl

theorem wordsGo_all_ws (l : List Char) (hl : l.all Char.isWhitespace = true) :
    ∀ acc, wordsGo acc l = if acc = [] then [] else [acc.reverse] := by
  induction l with
  | nil => intro acc; rfl
  | cons c cs ih =>
    intro acc
    simp only [List.all_cons, Bool.and_eq_true] at hl
    by_cases h : acc = []
    · simp only [wordsGo, hl.1, if_true, h]
      rw [ih hl.2 []]
      simp
    · simp only [wordsGo, hl.1, if_true, h, if_false]
      rw [ih hl.2 []]
      simp [h]

theorem words_all_ws (l : List Char) (hl : l.all Char.isWhitespace = true) :
    words l = [] := by
  unfold words
  simp [wordsGo_all_ws l hl]

theorem words_append_all_ws (x w : List Char) (hw : w.all Char.isWhitespace = true) :
    words (x ++ w) = words x := by
  cases w with
  | nil => simp
  | cons c cs =>
    simp only [List.all_cons, Bool.and_eq_true] at hw
    rw [words_append_ws c hw.1 x cs, words_all_ws cs hw.2, List.append_nil]

theorem words_eq_nil_iff (l : List Char) :
    words l = [] ↔ l.all Char.isWhitespace = true := by
  constructor
  · intro h
    induction l with
    | nil => rfl
    | cons c cs ih =>
      by_cases hc : c.isWhitespace
      · simp only [words, wordsGo, hc, if_true] at h ⊢
        simp only [List.all_cons, hc, Bool.true_and]
        exact ih h
      · exfalso
        have : wordsGo [c] cs ≠ [] := wordsGo_acc_ne_nil cs [c] (by simp)
        simp only [words, wordsGo, hc, if_false] at h
        exact this h
  · exact words_all_ws l

theorem wordsGo_wf (l : List Char) :
    ∀ acc, acc.all (fun c => !c.isWhitespace) = true →
      ∀ w ∈ wordsGo acc l, w ≠ [] ∧ w.all (fun c => !c.isWhitespace) = true := by
  induction l with
  | nil =>
    intro acc hacc w hw
    by_cases h : acc = []
    · simp [wordsGo, h] at hw
    · simp only [wordsGo, h, if_false, List.mem_singleton] at hw
      subst hw
      constructor
      · simpa using h
      · simpa using hacc
  | cons c cs ih =>
    intro acc hacc w hw
    by_cases hc : c.isWhitespace
    · by_cases h : acc = []
      · simp only [wordsGo, hc, if_true, h] at hw
        exact ih [] (by simp) w hw
      · simp only [wordsGo, hc, if_true, h, if_false, List.mem_cons] at hw
        rcases hw with hw | hw
        · subst hw
          exact ⟨by simpa using h, by simpa using hacc⟩
        · exact ih [] (by simp) w hw
    · simp only [wordsGo, hc, if_false] at hw
      exact ih (c :: acc) (by simp [hacc, hc]) w hw

theorem words_wf (l : List Char) :
    ∀ w ∈ words l, w ≠ [] ∧ w.all (fun c => !c.isWhitespace) = true :=
  wordsGo_wf l [] rfl

theorem wordsGo_all_nonws (l : List Char) (hl : l.all (fun c => !c.isWhitespace) = true) :
    ∀ acc, acc ≠ [] → wordsGo acc l = [acc.reverse ++ l] := by
  induction l with
  | nil => intro acc h; simp [wordsGo, h]
  | cons c cs ih =>
    intro acc h
    simp only [List.all_cons, Bool.and_eq_true] at hl
    have hc : ¬ c.isWhitespace = true := by
      simpa using hl.1
    simp only [wordsGo, hc, if_false]
    rw [ih hl.2 (c :: acc) (by simp)]
    simp

theorem words_single (w : List Char) (h : w ≠ [])
    (hw : w.all (fun c => !c.isWhitespace) = true) : words w = [w] := by
  cases w with
  | nil => exact absurd rfl h
  | cons c cs =>
    simp only [List.all_cons, Bool.and_eq_true] at hw
    have hc : ¬ c.isWhitespace = true := by simpa using hw.1
    simp only [words, wordsGo, hc, if_false]
    rw [wordsGo_all_nonws cs hw.2 [c] (by simp)]
    simp

theorem words_joinWords (ws : List (List Char))
    (h : ∀ w ∈ ws, w ≠ [] ∧ w.all (fun c => !c.isWhitespace) = true) :
    words (joinWords ws) = ws := by
  induction ws with
  | nil => rfl
  | cons w rest ih =>
    cases rest with
    | nil =>
      have hw := h w (by simp)
      simp only [joinWords]
      exact words_single w hw.1 hw.2
    | cons w2 rest2 =>
      have hw := h w (by simp)
      simp only [joinWords]
      rw [words_append_ws ' ' rfl w (joinWords (w2 :: rest2))]
      rw [words_single w hw.1 hw.2]
      rw [ih (fun x hx => h x (by simp [hx]))]
      rfl

theorem all_takeWhile (p : α → Bool) (l : List α) :
    (l.takeWhile p).all p = true := by
  induction l with
  | nil => rfl
  | cons c cs ih =>
    by_cases h : p c
    · simp [List.takeWhile_cons, h, ih]
    · simp [List.takeWhile_cons, h]

theorem words_stripChars (l : List Char) : words (stripChars l) = words l := by
  unfold stripChars
  have h1 : words (l.dropWhile Char.isWhitespace) = words l := by
    induction l with
    | nil => rfl
    | cons c cs ih =>
      by_cases hc : c.isWhitespace
      · simp only [List.dropWhile_cons, hc, if_true]
        rw [ih]
        simp [words, wordsGo, hc]
      · simp [List.dropWhile_cons, hc]
  set a := l.dropWhile Char.isWhitespace with ha
  have h2 : a = (a.reverse.dropWhile Char.isWhitespace).reverse ++
      (a.reverse.takeWhile Char.isWhitespace).reverse := by
    conv_lhs => rw [← List.reverse_reverse a]
    conv_lhs => rw [← List.takeWhile_append_dropWhile Char.isWhitespace a.reverse]
    rw [List.reverse_append]
  have h3 : ((a.reverse.takeWhile Char.isWhitespace).reverse).all Char.isWhitespace = true := by
    rw [List.all_reverse]
    exact all_takeWhile _ _
  have h4 : words a = words ((a.reverse.dropWhile Char.isWhitespace).reverse) := by
    conv_lhs => rw [h2]
    exact words_append_all_ws _ _ h3
  rw [← h4, h1]

theorem stripChars_eq_nil_iff (l : List Char) :
    stripChars l = [] ↔ l.all Char.isWhitespace = true := by
  constructor
  · intro h
    have h1 : words (stripChars l) = [] := by rw [h]; rfl
    rw [words_stripChars] at h1
    exact (words_eq_nil_iff l).mp h1
  · intro h
    unfold stripChars
    have : l.dropWhile Char.isWhitespace = [] := by
      rw [List.dropWhile_eq_nil_iff]
      intro x hx
      exact List.all_eq_true.mp h x hx
    simp [this]

theorem isBlankPy_iff (l : List Char) :
    isBlankPy l = true ↔ l.all Char.isWhitespace = true := by
  unfold isBlankPy
  constructor
  · intro h
    rcases (by simpa using h : l = [] ∨ stripChars l = []) with h | h
    · subst h; rfl
    · exact (stripChars_eq_nil_iff l).mp h
  · intro h
    simp [(stripChars_eq_nil_iff l).mpr h]

theorem isBlankPy_false_iff (l : List Char) :
    isBlankPy l = false ↔ words l ≠ [] := by
  constructor
  · intro h hw
    have h2 := (isBlankPy_iff l).mpr ((words_eq_nil_iff l).mp hw)
    rw [h] at h2
    exact Bool.false_ne_true h2
  · intro h
    cases hb : isBlankPy l with
    | false => rfl
    | true => exact absurd ((words_all_ws l ((isBlankPy_iff l).mp hb))) h

/- ------------------------------------------------------------------
   Lemmas about the token-window loop
   ------------------------------------------------------------------ -/

theorem chunkLoop_succ (tokens : List (List Char)) (size overlap fuel start : Nat) :
    chunkLoop tokens size overlap (fuel + 1) start
      = if start < tokens.length then
          if tokens.length ≤ start + size then some [(tokens.drop start).take size]
          else (chunkLoop tokens size overlap fuel (start + (size - overlap))).map
            (fun rest => (tokens.drop start).take size :: rest)
        else some [] := rfl

-- When the stride chunk_size - chunk_overlap is zero and the first
-- window does not reach the end, the loop never terminates.
theorem chunkLoop_stride_zero_none (tokens : List (List Char)) (size overlap : Nat)
    (hso : size ≤ overlap) :
    ∀ fuel start, start + size < tokens.length →
      chunkLoop tokens size overlap fuel start = none := by
  intro fuel
  induction fuel with
  | zero => intro start _; rfl
  | succ fuel ih =>
    intro start h
    have hlt : start < tokens.length := by omega
    have hbreak : ¬ tokens.length ≤ start + size := by omega
    have hsub : size - overlap = 0 := by omega
    simp only [chunkLoop, hlt, if_true, hbreak, if_false, hsub, Nat.add_zero]
    rw [ih start h]
    rfl

theorem chunkLoop_isSome (tokens : List (List Char)) (size overlap : Nat)
    (hos : overlap < size) :
    ∀ fuel start, tokens.length ≤ start + fuel * (size - overlap) →
      (chunkLoop tokens size overlap (fuel + 1) start).isSome = true := by
  intro fuel
  induction fuel with
  | zero =>
    intro start h
    simp only [Nat.zero_mul, Nat.add_zero] at h
    have : ¬ start < tokens.length := by omega
    simp [chunkLoop, this]
  | succ fuel ih =>
    intro start h
    by_cases hlt : start < tokens.length
    · by_cases hbreak : tokens.length ≤ start + size
      · simp [chunkLoop_succ, hlt, hbreak]
      · rw [chunkLoop_succ]
        simp only [hlt, if_true, hbreak, if_false]
        have h2 : tokens.length ≤ start + (size - overlap) + fuel * (size - overlap) := by
          have : (fuel + 1) * (size - overlap) = fuel * (size - overlap) + (size - overlap) := by
            ring
          omega
        have h3 := ih (start + (size - overlap)) h2
        rcases Option.isSome_iff_exists.mp h3 with ⟨v, hv⟩
        rw [hv]
        rfl
    · simp [chunkLoop_succ, hlt]

theorem chunkLoop_some_pos (tokens : List (List Char)) (size overlap : Nat) :
    ∀ fuel start l, chunkLoop tokens size overlap fuel start = some l →
      start < tokens.length → 0 < size := by
  intro fuel
  induction fuel with
  | zero => intro start l h _; exact absurd h (by simp [chunkLoop])
  | succ fuel ih =>
    intro start l h hlt
    by_cases hbreak : tokens.length ≤ start + size
    · omega
    · simp only [chunkLoop, hlt, if_true, hbreak, if_false] at h
      rcases Option.map_eq_some'.mp h with ⟨l2, h2, _⟩
      have hlt2 : start + (size - overlap) < tokens.length := by
        have : size - overlap ≤ size := Nat.sub_le _ _
        omega
      exact ih _ l2 h2 hlt2

-- Every window the loop emits is a nonempty slice of the token list of
-- at most size tokens.
theorem chunkLoop_windows (tokens : List (List Char)) (size overlap : Nat) :
    ∀ fuel start l, chunkLoop tokens size overlap fuel start = some l →
      ∀ w ∈ l, 1 ≤ w.length ∧ w.length ≤ size ∧ ∀ t ∈ w, t ∈ tokens := by
  intro fuel
  induction fuel with
  | zero => intro start l h; exact absurd h (by simp [chunkLoop])
  | succ fuel ih =>
    intro start l h w hw
    by_cases hlt : start < tokens.length
    · have hwin : ((tokens.drop start).take size).length = min size (tokens.length - start) := by
        simp [List.length_take, List.length_drop]
      by_cases hbreak : tokens.length ≤ start + size
      · simp only [chunkLoop, hlt, if_true, hbreak, if_true] at h
        have hl : l = [(tokens.drop start).take size] := by
          exact (Option.some_inj.mp h).symm
        subst hl
        rcases List.mem_singleton.mp hw with rfl
        refine ⟨by omega, by omega, ?_⟩
        intro t ht
        exact List.mem_of_mem_drop (List.mem_of_mem_take ht)
      · simp only [chunkLoop, hlt, if_true, hbreak, if_false] at h
        rcases Option.map_eq_some'.mp h with ⟨l2, h2, hl⟩
        subst hl
        rcases List.mem_cons.mp hw with rfl | hw2
        · have hpos : 0 < size := by
            have hlt2 : start + (size - overlap) < tokens.length := by
              have : size - overlap ≤ size := Nat.sub_le _ _
              omega
            exact chunkLoop_some_pos tokens size overlap fuel _ l2 h2 hlt2
          refine ⟨by omega, by omega, ?_⟩
          intro t ht
          exact List.mem_of_mem_drop (List.mem_of_mem_take ht)
        · exact ih _ l2 h2 w hw2
    · simp only [chunkLoop, hlt, if_false] at h
      have hl : l = [] := (Option.some_inj.mp h).symm
      subst hl
      exact absurd hw (List.not_mem_nil w)

-- the ceiling-division step used by the counting argument
theorem specExpectedChunks_step (n size overlap : Nat) (hos : overlap < size)
    (hn : size < n) :
    specExpectedChunks n size overlap
      = specExpectedChunks (n - (size - overlap)) size overlap + 1 := by
  have hs : 0 < size - overlap := by omega
  unfold specExpectedChunks
  have h1 : ¬ n ≤ overlap := by omega
  have h2 : ¬ n - (size - overlap) ≤ overlap := by omega
  simp only [h1, if_false, h2]
  have e1 : n - overlap + (size - overlap) - 1
      = (n - (size - overlap) - overlap + (size - overlap) - 1) + (size - overlap) := by
    omega
  rw [e1, Nat.add_div_right _ hs]

theorem specExpectedChunks_one (n size overlap : Nat) (hos : overlap < size)
    (h1 : 1 ≤ n) (h2 : n ≤ size) :
    specExpectedChunks n size overlap = 1 := by
  unfold specExpectedChunks
  by_cases h : n ≤ overlap
  · simp [h]
  · simp only [h, if_false]
    have hs : 0 < size - overlap := by omega
    have hlow : size - overlap ≤ n - overlap + (size - overlap) - 1 := by omega
    have hhi : n - overlap + (size - overlap) - 1 < 2 * (size - overlap) := by omega
    have := Nat.div_eq_of_lt_le (by omega : 1 * (size - overlap) ≤ n - overlap + (size - overlap) - 1)
      (by omega : n - overlap + (size - overlap) - 1 < (1 + 1) * (size - overlap))
    simpa using this

theorem orDefault_some_of_ne_zero (v d : Nat) (h : v ≠ 0) : orDefault (some v) d = v := by
  simp [orDefault, h]

theorem chunkLoop_count (tokens : List (List Char)) (size overlap : Nat)
    (hos : overlap < size) :
    ∀ fuel start, start < tokens.length →
      tokens.length ≤ start + fuel * (size - overlap) →
      ∃ l, chunkLoop tokens size overlap (fuel + 1) start = some l ∧
        l.length = specExpectedChunks (tokens.length - start) size overlap := by
  intro fuel
  induction fuel with
  | zero =>
    intro start hlt h
    simp only [Nat.zero_mul, Nat.add_zero] at h
    omega
  | succ fuel ih =>
    intro start hlt h
    by_cases hbreak : tokens.length ≤ start + size
    · refine ⟨[(tokens.drop start).take size], ?_, ?_⟩
      · simp [chunkLoop, hlt, hbreak]
      · simp only [List.length_singleton]
        exact (specExpectedChunks_one (tokens.length - start) size overlap hos
          (by omega) (by omega)).symm
    · have hlt2 : start + (size - overlap) < tokens.length := by
        have : size - overlap ≤ size := Nat.sub_le _ _
        omega
      have h2 : tokens.length ≤ start + (size - overlap) + fuel * (size - overlap) := by
        have : (fuel + 1) * (size - overlap) = fuel * (size - overlap) + (size - overlap) := by
          ring
        omega
      rcases ih (start + (size - overlap)) hlt2 h2 with ⟨l2, hl2, hlen2⟩
      refine ⟨(tokens.drop start).take size :: l2, ?_, ?_⟩
      · rw [chunkLoop_succ]
        simp only [hlt, if_true, hbreak, if_false]
        rw [hl2]
        rfl
      · simp only [List.length_cons, hlen2]
        have e1 : tokens.length - (start + (size - overlap))
            = tokens.length - start - (size - overlap) := by omega
        rw [e1]
        rw [specExpectedChunks_step (tokens.length - start) size overlap hos (by omega)]

/- ------------------------------------------------------------------
   Lemmas about chunk_by_tokens
   ------------------------------------------------------------------ -/

theorem chunkByTokensPy_isSome (s : Chunker) (text : List Char)
    (sizeO overlapO : Option Nat)
    (h : orDefault overlapO s.chunk_overlap < orDefault sizeO s.chunk_size) :
    (chunkByTokensPy s text sizeO overlapO).isSome = true := by
  unfold chunkByTokensPy
  by_cases hb : isBlankPy text
  · simp [hb]
  · simp only [hb, if_false, Bool.false_eq_true]
    have h3 := chunkLoop_isSome (words text) _ _ h (words text).length 0
      (by
        have hs : 0 < orDefault sizeO s.chunk_size - orDefault overlapO s.chunk_overlap := by
          omega
        have := Nat.le_mul_of_pos_right (words text).length hs
        omega)
    rcases Option.isSome_iff_exists.mp h3 with ⟨v, hv⟩
    rw [hv]
    rfl

theorem chunkByTokensPy_counts (s : Chunker) (text : List Char)
    (sizeO overlapO : Option Nat) (l : List (List Char))
    (h : chunkByTokensPy s text sizeO overlapO = some l) :
    ∀ c ∈ l, 1 ≤ countTokens c ∧ countTokens c ≤ orDefault sizeO s.chunk_size ∧
      isBlankPy c = false := by
  intro c hc
  unfold chunkByTokensPy at h
  by_cases hb : isBlankPy text
  · simp only [hb, if_true, Option.some_inj] at h
    subst h
    exact absurd hc (List.not_mem_nil c)
  · simp only [hb, if_false, Bool.false_eq_true] at h
    rcases Option.map_eq_some'.mp h with ⟨wins, hwins, hl⟩
    subst hl
    rcases List.mem_map.mp hc with ⟨w, hw, hcw⟩
    subst hcw
    have hprops := chunkLoop_windows (words text) _ _ _ _ wins hwins w hw
    have hwf : ∀ t ∈ w, t ≠ [] ∧ t.all (fun ch => !ch.isWhitespace) = true := by
      intro t ht
      exact words_wf text t (hprops.2.2 t ht)
    have hjw : words (joinWords w) = w := words_joinWords w hwf
    have hcount : countTokens (joinWords w) = w.length := by
      unfold countTokens
      rw [hjw]
    refine ⟨by omega, by omega, ?_⟩
    rw [isBlankPy_false_iff, hjw]
    intro hnil
    rw [hnil] at hprops
    simp at hprops

theorem chunkByTokensPy_length (s : Chunker) (text : List Char)
    (hos : s.chunk_overlap < s.chunk_size) (hn : 0 < countTokens text) :
    (chunkByTokensPy s text none none).map List.length
      = some (specExpectedChunks (countTokens text) s.chunk_size s.chunk_overlap) := by
  have hb : isBlankPy text = false := by
    rw [isBlankPy_false_iff]
    intro hw
    unfold countTokens at hn
    rw [hw] at hn
    simp at hn
  unfold chunkByTokensPy
  rw [hb]
  simp only [Bool.false_eq_true, if_false]
  rcases chunkLoop_count (words text) s.chunk_size s.chunk_overlap hos
      (words text).length 0 (by unfold countTokens at hn; omega)
      (by
        have hs : 0 < s.chunk_size - s.chunk_overlap := by omega
        have := Nat.le_mul_of_pos_right (words text).length hs
        omega) with ⟨l, hl, hlen⟩
  rw [show orDefault none s.chunk_size = s.chunk_size from rfl,
    show orDefault none s.chunk_overlap = s.chunk_overlap from rfl, hl]
  simp only [Option.map_map, Option.map_some', List.length_map, Function.comp]
  rw [hlen]
  simp [countTokens]

-- With chunk_overlap >= chunk_size, a text that fits in one window is
-- returned whole: nothing is rejected.
theorem chunkByTokensPy_single (s : Chunker) (text : List Char)
    (hb : isBlankPy text = false) (hfit : countTokens text ≤ s.chunk_size)
    (hpos : 0 < countTokens text) :
    chunkByTokensPy s text none none = some [joinWords (words text)] := by
  unfold chunkByTokensPy
  rw [hb]
  simp only [Bool.false_eq_true, if_false, orDefault]
  unfold countTokens at hfit hpos
  rw [chunkLoop_succ]
  have h1 : (0 : Nat) < (words text).length := hpos
  have h2 : (words text).length ≤ 0 + s.chunk_size := by omega
  simp only [h1, if_true, h2, if_true]
  rw [List.drop_zero, List.take_of_length_le hfit]
  rfl

-- With chunk_overlap >= chunk_size and a text longer than one window,
-- the loop never terminates (none): again nothing is rejected, the
-- call simply never returns.
theorem chunkByTokensPy_diverges (s : Chunker) (text : List Char)
    (hso : s.chunk_size ≤ s.chunk_overlap)
    (hlong : s.chunk_size < countTokens text) :
    chunkByTokensPy s text none none = none := by
  have hb : isBlankPy text = false := by
    rw [isBlankPy_false_iff]
    intro hw
    unfold countTokens at hlong
    rw [hw] at hlong
    simp at hlong
  unfold chunkByTokensPy
  rw [hb]
  simp only [Bool.false_eq_true, if_false, orDefault]
  rw [chunkLoop_stride_zero_none (words text) s.chunk_size s.chunk_overlap hso
    ((words text).length + 1) 0 (by unfold countTokens at hlong; omega)]
  rfl

/- ------------------------------------------------------------------
   Lemmas about the sentence packing loop
   ------------------------------------------------------------------ -/

theorem words_append_space (x : List Char) : words (x ++ [' ']) = words x :=
  words_append_all_ws x [' '] (by decide)

theorem stripChars_ne_nil_words (l : List Char) (h : stripChars l ≠ []) :
    words l ≠ [] := fun hw =>
  h ((stripChars_eq_nil_iff l).mpr ((words_eq_nil_iff l).mp hw))

theorem packLoop_nil (s : Chunker) (m : Nat) (current : List Char) (curTok : Nat) :
    packLoop s m [] current curTok
      = some (if stripChars current ≠ [] then [stripChars current] else []) := rfl

theorem packLoop_cons (s : Chunker) (m : Nat) (sentence : List Char)
    (rest : List (List Char)) (current : List Char) (curTok : Nat) :
    packLoop s m (sentence :: rest) current curTok =
      if stripChars sentence = [] then packLoop s m rest current curTok
      else if m < countTokens (stripChars sentence) then
        match chunkByTokensPy s (stripChars sentence) (some m) none with
        | none => none
        | some large =>
          (packLoop s m rest [] 0).map
            (fun more => (if current ≠ [] then [stripChars current] else []) ++ large ++ more)
      else if m < curTok + countTokens (stripChars sentence) ∧ current ≠ [] then
        (packLoop s m rest (stripChars sentence ++ [' '])
            (countTokens (stripChars sentence))).map
          (fun more => stripChars current :: more)
      else
        packLoop s m rest (current ++ stripChars sentence ++ [' '])
          (curTok + countTokens (stripChars sentence)) := rfl

-- Invariant proof for the packing loop: every emitted chunk is
-- non-blank, and of at most m tokens when the instance default cannot
-- leak into the delegated call (m nonzero).
theorem packLoop_chunks (s : Chunker) (m : Nat) :
    ∀ (sentences : List (List Char)) (current : List Char) (curTok : Nat)
      (l : List (List Char)),
      curTok = (words current).length → curTok ≤ m →
      ((current = [] ∧ curTok = 0) ∨ ((∃ d, current = d ++ [' ']) ∧ 1 ≤ curTok)) →
      packLoop s m sentences current curTok = some l →
      ∀ c ∈ l, isBlankPy c = false ∧ (m ≠ 0 → countTokens c ≤ m) := by
  intro sentences
  induction sentences with
  | nil =>
    intro current curTok l hct hle hinv h c hc
    rw [packLoop_nil] at h
    have hl := Option.some_inj.mp h
    by_cases hsc : stripChars current = []
    · rw [if_neg (by simpa using hsc)] at hl
      subst hl
      exact absurd hc (List.not_mem_nil c)
    · rw [if_pos hsc] at hl
      subst hl
      rcases List.mem_singleton.mp hc with rfl
      have hw : words (stripChars current) ≠ [] := by
        rw [words_stripChars]
        exact stripChars_ne_nil_words current hsc
      refine ⟨(isBlankPy_false_iff _).mpr hw, fun _ => ?_⟩
      have : countTokens (stripChars current) = curTok := by
        unfold countTokens
        rw [words_stripChars, hct]
      omega
  | cons sentence rest ih =>
    intro current curTok l hct hle hinv h c hc
    rw [packLoop_cons] at h
    by_cases hs0 : stripChars sentence = []
    · rw [if_pos hs0] at h
      exact ih current curTok l hct hle hinv h c hc
    · rw [if_neg hs0] at h
      have hstw : words (stripChars sentence) ≠ [] := by
        rw [words_stripChars]
        exact stripChars_ne_nil_words sentence hs0
      have hst1 : 1 ≤ countTokens (stripChars sentence) := by
        unfold countTokens
        exact List.length_pos.mpr hstw
      by_cases hbig : m < countTokens (stripChars sentence)
      · rw [if_pos hbig] at h
        cases hdel : chunkByTokensPy s (stripChars sentence) (some m) none with
        | none => rw [hdel] at h; exact absurd h (by simp)
        | some large =>
          rw [hdel] at h
          rcases Option.map_eq_some'.mp h with ⟨more, hrec, hl⟩
          subst hl
          rcases List.mem_append.mp hc with hc1 | hcmore
          · rcases List.mem_append.mp hc1 with hcf | hclarge
            · by_cases hcur : current = []
              · rw [if_neg (by simpa using hcur)] at hcf
                exact absurd hcf (List.not_mem_nil c)
              · rw [if_pos (by simpa using hcur)] at hcf
                rcases List.mem_singleton.mp hcf with rfl
                have h1c : 1 ≤ curTok := by
                  rcases hinv with ⟨he, _⟩ | ⟨_, h1⟩
                  · exact absurd he hcur
                  · exact h1
                have hw : words (stripChars current) ≠ [] := by
                  rw [words_stripChars]
                  intro hwn
                  rw [hct, hwn] at h1c
                  simp at h1c
                refine ⟨(isBlankPy_false_iff _).mpr hw, fun _ => ?_⟩
                have : countTokens (stripChars current) = curTok := by
                  unfold countTokens
                  rw [words_stripChars, hct]
                omega
            · have := chunkByTokensPy_counts s (stripChars sentence) (some m) none large hdel c hclarge
              refine ⟨this.2.2, fun hm => ?_⟩
              have he : orDefault (some m) s.chunk_size = m := orDefault_some_of_ne_zero m _ hm
              rw [he] at this
              omega
          · exact ih [] 0 more rfl (by omega) (Or.inl ⟨rfl, rfl⟩) hrec c hcmore
      · rw [if_neg hbig] at h
        by_cases hflush : m < curTok + countTokens (stripChars sentence) ∧ current ≠ []
        · rw [if_pos hflush] at h
          rcases Option.map_eq_some'.mp h with ⟨more, hrec, hl⟩
          subst hl
          rcases List.mem_cons.mp hc with rfl | hcmore
          · have h1c : 1 ≤ curTok := by
              rcases hinv with ⟨he, _⟩ | ⟨_, h1⟩
              · exact absurd he hflush.2
              · exact h1
            have hw : words (stripChars current) ≠ [] := by
              rw [words_stripChars]
              intro hwn
              rw [hct, hwn] at h1c
              simp at h1c
            refine ⟨(isBlankPy_false_iff _).mpr hw, fun _ => ?_⟩
            have : countTokens (stripChars current) = curTok := by
              unfold countTokens
              rw [words_stripChars, hct]
            omega
          · refine ih (stripChars sentence ++ [' ']) (countTokens (stripChars sentence))
              more ?_ (by omega) ?_ hrec c hcmore
            · unfold countTokens
              rw [words_append_space]
            · exact Or.inr ⟨⟨stripChars sentence, rfl⟩, hst1⟩
        · rw [if_neg hflush] at h
          rcases hinv with ⟨he, h0⟩ | ⟨⟨d, hd⟩, h1⟩
          · subst he
            subst h0
            refine ih (stripChars sentence ++ [' ']) (countTokens (stripChars sentence))
              l ?_ (by omega) ?_ (by simpa using h) c hc
            · unfold countTokens
              rw [words_append_space]
            · exact Or.inr ⟨⟨stripChars sentence, rfl⟩, hst1⟩
          · have hcur : current ≠ [] := by
              rw [hd]; simp
            have hnof : ¬ m < curTok + countTokens (stripChars sentence) := by
              intro hcon
              exact hflush ⟨hcon, hcur⟩
            have hwc : words (current ++ stripChars sentence ++ [' '])
                = words current ++ words (stripChars sentence) := by
              rw [words_append_space (current ++ stripChars sentence)]
              rw [hd, List.append_assoc d [' '] (stripChars sentence)]
              rw [show ([' '] : List Char) ++ stripChars sentence
                  = ' ' :: stripChars sentence from rfl]
              rw [words_append_ws ' ' (by decide) d (stripChars sentence)]
              rw [words_append_space d]
            refine ih (current ++ stripChars sentence ++ [' '])
              (curTok + countTokens (stripChars sentence)) l ?_ (by omega) ?_ h c hc
            · rw [hwc, List.length_append, hct]
              rfl
            · exact Or.inr ⟨⟨current ++ stripChars sentence, rfl⟩, by omega⟩

theorem chunkBySentencesPy_chunks (s : Chunker) (text : List Char)
    (maxO : Option Nat) (l : List (List Char))
    (h : chunkBySentencesPy s text maxO = some l) :
    ∀ c ∈ l, isBlankPy c = false ∧
      (orDefault maxO s.chunk_size ≠ 0 → countTokens c ≤ orDefault maxO s.chunk_size) := by
  unfold chunkBySentencesPy at h
  by_cases hb : isBlankPy text
  · simp only [hb, if_true, Option.some_inj] at h
    subst h
    intro c hc
    exact absurd hc (List.not_mem_nil c)
  · simp only [hb, if_false, Bool.false_eq_true] at h
    exact packLoop_chunks s (orDefault maxO s.chunk_size) (splitSentences text) [] 0 l
      rfl (by omega) (Or.inl ⟨rfl, rfl⟩) h

theorem packLoop_isSome (s : Chunker) (m : Nat) (hom : s.chunk_overlap < m) :
    ∀ (sentences : List (List Char)) (current : List Char) (curTok : Nat),
      (packLoop s m sentences current curTok).isSome = true := by
  intro sentences
  induction sentences with
  | nil =>
    intro current curTok
    rw [packLoop_nil]
    rfl
  | cons sentence rest ih =>
    intro current curTok
    rw [packLoop_cons]
    by_cases hs0 : stripChars sentence = []
    · rw [if_pos hs0]
      exact ih current curTok
    · rw [if_neg hs0]
      by_cases hbig : m < countTokens (stripChars sentence)
      · rw [if_pos hbig]
        have hm : m ≠ 0 := by omega
        have hdel : (chunkByTokensPy s (stripChars sentence) (some m) none).isSome = true := by
          apply chunkByTokensPy_isSome
          rw [orDefault_some_of_ne_zero m _ hm]
          exact hom
        rcases Option.isSome_iff_exists.mp hdel with ⟨large, hlarge⟩
        rw [hlarge]
        rcases Option.isSome_iff_exists.mp (ih [] 0) with ⟨more, hmore⟩
        rw [hmore]
        rfl
      · rw [if_neg hbig]
        by_cases hflush : m < curTok + countTokens (stripChars sentence) ∧ current ≠ []
        · rw [if_pos hflush]
          rcases Option.isSome_iff_exists.mp
            (ih (stripChars sentence ++ [' ']) (countTokens (stripChars sentence))) with ⟨v, hv⟩
          rw [hv]
          rfl
        · rw [if_neg hflush]
          exact ih _ _

theorem chunkBySentencesPy_isSome (s : Chunker) (text : List Char) (maxO : Option Nat)
    (h : s.chunk_overlap < orDefault maxO s.chunk_size) :
    (chunkBySentencesPy s text maxO).isSome = true := by
  unfold chunkBySentencesPy
  by_cases hb : isBlankPy text
  · simp [hb]
  · simp only [hb, if_false, Bool.false_eq_true]
    exact packLoop_isSome s _ h (splitSentences text) [] 0

/- ------------------------------------------------------------------
   Lemmas about structured chunks, create_chunks and the merger
   ------------------------------------------------------------------ -/

theorem buildChunks_props (f : String) (p : Option Nat) (strategy : String)
    (ts : List (List Char)) :
    ∀ i, ∀ c ∈ buildChunks f p strategy i ts,
      c.token_count = countTokens c.text ∧ c.character_count = c.text.length ∧
      c.word_count = (words c.text).length ∧ c.source_file = f ∧
      c.page_number = p ∧ c.chunking_strategy = strategy ∧ c.text ∈ ts := by
  induction ts with
  | nil => intro i c hc; exact absurd hc (List.not_mem_nil c)
  | cons t ts ih =>
    intro i c hc
    rcases List.mem_cons.mp hc with rfl | hc2
    · exact ⟨rfl, rfl, rfl, rfl, rfl, rfl, by simp [mkChunk]⟩
    · have := ih (i + 1) c hc2
      exact ⟨this.1, this.2.1, this.2.2.1, this.2.2.2.1, this.2.2.2.2.1,
        this.2.2.2.2.2.1, by simp [this.2.2.2.2.2.2]⟩

theorem buildChunks_indices (f : String) (p : Option Nat) (strategy : String)
    (ts : List (List Char)) :
    ∀ i, (buildChunks f p strategy i ts).map (fun c => c.chunk_index)
      = List.range' i ts.length := by
  induction ts with
  | nil => intro i; rfl
  | cons t ts ih =>
    intro i
    simp only [buildChunks, List.map_cons, List.length_cons, List.range'_succ]
    rw [ih (i + 1)]
    rfl

theorem buildChunks_length (f : String) (p : Option Nat) (strategy : String)
    (ts : List (List Char)) :
    ∀ i, (buildChunks f p strategy i ts).length = ts.length := by
  induction ts with
  | nil => intro i; rfl
  | cons t ts ih =>
    intro i
    simp only [buildChunks, List.length_cons, ih (i + 1)]

theorem createChunks_props (s : Chunker) (text : List Char) (f : String)
    (p : Option Nat) (strategy : String) (chunks : List Chunk)
    (h : createChunks s text f p strategy = some chunks) :
    (∀ c ∈ chunks, c.token_count = countTokens c.text ∧
      isBlankPy c.text = false ∧ c.page_number = p ∧ c.source_file = f) ∧
    chunks.map (fun c => c.chunk_index) = List.range chunks.length := by
  unfold createChunks at h
  by_cases hb : isBlankPy text
  · simp only [hb, if_true, Option.some_inj] at h
    subst h
    exact ⟨fun c hc => absurd hc (List.not_mem_nil c), rfl⟩
  · simp only [hb, if_false, Bool.false_eq_true] at h
    by_cases hstrat : strategy = "sentences"
    · rw [if_pos hstrat] at h
      rcases Option.map_eq_some'.mp h with ⟨raw, hraw, hchunks⟩
      subst hchunks
      have hnb : ∀ t ∈ raw, isBlankPy t = false := fun t ht =>
        (chunkBySentencesPy_chunks s text none raw hraw t ht).1
      constructor
      · intro c hc
        have hp := buildChunks_props f p strategy raw 0 c hc
        exact ⟨hp.1, by rw [hp.1]  at *; exact (by
            have := hnb c.text hp.2.2.2.2.2.2
            exact this), hp.2.2.2.2.1, hp.2.2.2.1⟩
      · rw [buildChunks_indices f p strategy raw 0, buildChunks_length f p strategy raw 0,
          List.range_eq_range']
    · rw [if_neg hstrat] at h
      rcases Option.map_eq_some'.mp h with ⟨raw, hraw, hchunks⟩
      subst hchunks
      have hnb : ∀ t ∈ raw, isBlankPy t = false := fun t ht =>
        (chunkByTokensPy_counts s text none none raw hraw t ht).2.2
      constructor
      · intro c hc
        have hp := buildChunks_props f p strategy raw 0 c hc
        exact ⟨hp.1, hnb c.text hp.2.2.2.2.2.2, hp.2.2.2.2.1, hp.2.2.2.1⟩
      · rw [buildChunks_indices f p strategy raw 0, buildChunks_length f p strategy raw 0,
          List.range_eq_range']

theorem mergeSmallChunks_cons (minSize : Nat) (c : Chunk) (rest : List Chunk) :
    mergeSmallChunks minSize (c :: rest) =
      if minSize ≤ c.token_count then c :: mergeSmallChunks minSize rest
      else match rest with
        | [] => [c]
        | next :: rest2 => mkMerged c next :: mergeSmallChunks minSize rest2 := by
  cases rest <;> simp [mergeSmallChunks]

-- C8 core: a pass over chunks all of size at least minSize changes nothing.
theorem mergeSmallChunks_id (minSize : Nat) (chunks : List Chunk)
    (h : ∀ c ∈ chunks, minSize ≤ c.token_count) :
    mergeSmallChunks minSize chunks = chunks := by
  induction chunks using mergeSmallChunks.induct minSize with
  | case1 => rfl
  | case2 c rest hle ih =>
    rw [mergeSmallChunks_cons, if_pos hle, ih (fun d hd => h d (by simp [hd]))]
  | case3 c hlt => exact absurd (h c (by simp)) hlt
  | case4 c hlt next rest2 ih => exact absurd (h c (by simp)) hlt

theorem mergeSmallChunks_props (minSize : Nat) (chunks : List Chunk)
    (h : ∀ c ∈ chunks, c.token_count = countTokens c.text ∧ isBlankPy c.text = false) :
    ∀ c ∈ mergeSmallChunks minSize chunks,
      c.token_count = countTokens c.text ∧ isBlankPy c.text = false := by
  induction chunks using mergeSmallChunks.induct minSize with
  | case1 => intro c hc; exact absurd hc (List.not_mem_nil c)
  | case2 c rest hle ih =>
    intro d hd
    rw [mergeSmallChunks_cons, if_pos hle] at hd
    rcases List.mem_cons.mp hd with rfl | hd2
    · exact h d (by simp)
    · exact ih (fun x hx => h x (by simp [hx])) d hd2
  | case3 c hlt =>
    intro d hd
    rw [mergeSmallChunks_cons, if_neg hlt] at hd
    rcases List.mem_singleton.mp hd with rfl
    exact h d (by simp)
  | case4 c hlt next rest2 ih =>
    intro d hd
    rw [mergeSmallChunks_cons, if_neg hlt] at hd
    rcases List.mem_cons.mp hd with rfl | hd2
    · refine ⟨rfl, ?_⟩
      rw [isBlankPy_false_iff]
      show words (c.text ++ ' ' :: next.text) ≠ []
      rw [words_append_ws ' ' (by decide) c.text next.text]
      have hcnb := (h c (by simp)).2
      rw [isBlankPy_false_iff] at hcnb
      simp [hcnb]
    · exact ih (fun x hx => h x (by simp [hx])) d hd2

theorem mergeSmallChunks_pages (minSize : Nat) (chunks : List Chunk) (p : Option Nat)
    (h : ∀ c ∈ chunks, c.page_number = p) :
    ∀ c ∈ mergeSmallChunks minSize chunks, c.page_number = p := by
  induction chunks using mergeSmallChunks.induct minSize with
  | case1 => intro c hc; exact absurd hc (List.not_mem_nil c)
  | case2 c rest hle ih =>
    intro d hd
    rw [mergeSmallChunks_cons, if_pos hle] at hd
    rcases List.mem_cons.mp hd with rfl | hd2
    · exact h d (by simp)
    · exact ih (fun x hx => h x (by simp [hx])) d hd2
  | case3 c hlt =>
    intro d hd
    rw [mergeSmallChunks_cons, if_neg hlt] at hd
    rcases List.mem_singleton.mp hd with rfl
    exact h d (by simp)
  | case4 c hlt next rest2 ih =>
    intro d hd
    rw [mergeSmallChunks_cons, if_neg hlt] at hd
    rcases List.mem_cons.mp hd with rfl | hd2
    · exact h c (by simp)
    · exact ih (fun x hx => h x (by simp [hx])) d hd2

theorem mergeSmallChunks_index_mem (minSize : Nat) (chunks : List Chunk) :
    ∀ c ∈ mergeSmallChunks minSize chunks, ∃ d ∈ chunks, c.chunk_index = d.chunk_index := by
  induction chunks using mergeSmallChunks.induct minSize with
  | case1 => intro c hc; exact absurd hc (List.not_mem_nil c)
  | case2 c rest hle ih =>
    intro d hd
    rw [mergeSmallChunks_cons, if_pos hle] at hd
    rcases List.mem_cons.mp hd with rfl | hd2
    · exact ⟨d, by simp, rfl⟩
    · rcases ih d hd2 with ⟨e, he, heq⟩
      exact ⟨e, by simp [he], heq⟩
  | case3 c hlt =>
    intro d hd
    rw [mergeSmallChunks_cons, if_neg hlt] at hd
    rcases List.mem_singleton.mp hd with rfl
    exact ⟨d, by simp, rfl⟩
  | case4 c hlt next rest2 ih =>
    intro d hd
    rw [mergeSmallChunks_cons, if_neg hlt] at hd
    rcases List.mem_cons.mp hd with rfl | hd2
    · exact ⟨c, by simp, rfl⟩
    · rcases ih d hd2 with ⟨e, he, heq⟩
      exact ⟨e, by simp [he], heq⟩

theorem mergeSmallChunks_sorted (minSize : Nat) (chunks : List Chunk)
    (h : chunks.Pairwise (fun a b => a.chunk_index < b.chunk_index)) :
    (mergeSmallChunks minSize chunks).Pairwise
      (fun a b => a.chunk_index < b.chunk_index) := by
  induction chunks using mergeSmallChunks.induct minSize with
  | case1 => exact List.Pairwise.nil
  | case2 c rest hle ih =>
    rcases List.pairwise_cons.mp h with ⟨hrel, hrest⟩
    rw [mergeSmallChunks_cons, if_pos hle]
    refine List.pairwise_cons.mpr ⟨?_, ih hrest⟩
    intro d hd
    rcases mergeSmallChunks_index_mem minSize rest d hd with ⟨e, he, heq⟩
    rw [heq]
    exact hrel e he
  | case3 c hlt =>
    rw [mergeSmallChunks_cons, if_neg hlt]
    exact List.pairwise_singleton _ _
  | case4 c hlt next rest2 ih =>
    rcases List.pairwise_cons.mp h with ⟨hrel, hrest⟩
    rcases List.pairwise_cons.mp hrest with ⟨hrel2, hrest2⟩
    rw [mergeSmallChunks_cons, if_neg hlt]
    refine List.pairwise_cons.mpr ⟨?_, ih hrest2⟩
    intro d hd
    rcases mergeSmallChunks_index_mem minSize rest2 d hd with ⟨e, he, heq⟩
    show (mkMerged c next).chunk_index < d.chunk_index
    rw [heq]
    exact hrel e (by simp [he])

/- ------------------------------------------------------------------
   Lemmas about chunk_document and chunk_multiple_pages
   ------------------------------------------------------------------ -/

theorem calculateOptimalChunkSize_ge (n : Nat) : 500 ≤ calculateOptimalChunkSize n := by
  unfold calculateOptimalChunkSize
  by_cases h1 : n ≤ 2000
  · simp [h1]
  · by_cases h2 : n ≤ 10000
    · simp [h1, h2]
    · by_cases h3 : n ≤ 50000
      · simp [h1, h2, h3]
      · simp [h1, h2, h3]

theorem advisorState_overlap (s : Chunker) (text : List Char) (auto : Bool) :
    (advisorState s text auto).chunk_overlap = s.chunk_overlap := by
  unfold advisorState
  split <;> rfl

theorem advisorState_encoding (s : Chunker) (text : List Char) (auto : Bool) :
    (advisorState s text auto).encoding_name = s.encoding_name := by
  unfold advisorState
  split <;> rfl

-- The instance state after chunk_document: with auto_optimize the
-- chunk_size field holds the Advisor value for this text, otherwise
-- the state is untouched.
theorem chunkDocument_snd (s : Chunker) (text : List Char) (f : String)
    (p : Option Nat) (auto : Bool) (hb : isBlankPy text = false) :
    (chunkDocument s text f p auto).2 = advisorState s text auto := by
  unfold chunkDocument
  rw [hb]
  simp only [Bool.false_eq_true, if_false]
  split
  · rfl
  · split <;> rfl

theorem chunkDocument_snd_blank (s : Chunker) (text : List Char) (f : String)
    (p : Option Nat) (auto : Bool) (hb : isBlankPy text = true) :
    (chunkDocument s text f p auto).2 = s := by
  unfold chunkDocument
  rw [hb]
  rfl

theorem createChunks_sentences_isSome (s : Chunker) (text : List Char) (f : String)
    (p : Option Nat) (h : s.chunk_overlap < s.chunk_size) :
    (createChunks s text f p "sentences").isSome = true := by
  unfold createChunks
  by_cases hb : isBlankPy text
  · simp [hb]
  · simp only [hb, if_false, Bool.false_eq_true, if_pos rfl]
    have hs := chunkBySentencesPy_isSome s text none h
    rcases Option.isSome_iff_exists.mp hs with ⟨v, hv⟩
    rw [hv]
    rfl

theorem chunkDocument_isSome (s : Chunker) (text : List Char) (f : String)
    (p : Option Nat) (auto : Bool)
    (h : (advisorState s text auto).chunk_overlap < (advisorState s text auto).chunk_size) :
    ((chunkDocument s text f p auto).1).isSome = true := by
  unfold chunkDocument
  by_cases hb : isBlankPy text
  · simp [hb]
  · simp only [hb, if_false, Bool.false_eq_true]
    have hcs := createChunks_sentences_isSome (advisorState s text auto) text f p h
    split
    · rename_i heq
      rw [heq] at hcs
      exact absurd hcs (by simp)
    · split <;> rfl

-- The advisor hypothesis of chunkDocument_isSome follows from
-- chunk_overlap < 500 in auto mode and from a valid instance
-- configuration otherwise.
theorem advisorState_valid (s : Chunker) (text : List Char) (auto : Bool)
    (h : if auto then s.chunk_overlap < 500 else s.chunk_overlap < s.chunk_size) :
    (advisorState s text auto).chunk_overlap < (advisorState s text auto).chunk_size := by
  unfold advisorState
  cases auto with
  | false => simpa using h
  | true =>
    simp only [if_true] at h ⊢
    have := calculateOptimalChunkSize_ge (countTokens text)
    show s.chunk_overlap < calculateOptimalChunkSize (countTokens text)
    omega

theorem chunkDocument_chunks_props (s : Chunker) (text : List Char) (f : String)
    (p : Option Nat) (auto : Bool) (chunks : List Chunk)
    (h : (chunkDocument s text f p auto).1 = some chunks) :
    ∀ c ∈ chunks, c.token_count = countTokens c.text ∧ isBlankPy c.text = false ∧
      c.page_number = p := by
  unfold chunkDocument at h
  by_cases hb : isBlankPy text
  · rw [hb] at h
    simp only [if_true] at h
    have he : chunks = [] := (Option.some_inj.mp h).symm
    subst he
    intro c hc
    exact absurd hc (List.not_mem_nil c)
  · simp only [hb, if_false, Bool.false_eq_true] at h
    cases hcc : createChunks (advisorState s text auto) text f p "sentences" with
    | none => rw [hcc] at h; exact absurd h (by simp)
    | some cs =>
      rw [hcc] at h
      simp only [] at h
      have hprops := createChunks_props _ text f p "sentences" cs hcc
      have hbase : ∀ c ∈ cs, c.token_count = countTokens c.text ∧ isBlankPy c.text = false :=
        fun c hc => ⟨(hprops.1 c hc).1, (hprops.1 c hc).2.1⟩
      have hpage : ∀ c ∈ cs, c.page_number = p := fun c hc => (hprops.1 c hc).2.2.1
      split at h
      · have he : mergeSmallChunks
            (max 100 ((advisorState s text auto).chunk_size / 10)) cs = chunks :=
          Option.some_inj.mp h
        subst he
        intro c hc
        have h1 := mergeSmallChunks_props _ cs hbase c hc
        have h2 := mergeSmallChunks_pages _ cs p hpage c hc
        exact ⟨h1.1, h1.2, h2⟩
      · have he : cs = chunks := Option.some_inj.mp h
        subst he
        intro c hc
        exact ⟨(hbase c hc).1, (hbase c hc).2, hpage c hc⟩

theorem chunkDocument_chunks_sorted (s : Chunker) (text : List Char) (f : String)
    (p : Option Nat) (auto : Bool) (chunks : List Chunk)
    (h : (chunkDocument s text f p auto).1 = some chunks) :
    chunks.Pairwise (fun a b => a.chunk_index < b.chunk_index) := by
  unfold chunkDocument at h
  by_cases hb : isBlankPy text
  · rw [hb] at h
    simp only [if_true] at h
    have he : chunks = [] := (Option.some_inj.mp h).symm
    subst he
    exact List.Pairwise.nil
  · simp only [hb, if_false, Bool.false_eq_true] at h
    cases hcc : createChunks (advisorState s text auto) text f p "sentences" with
    | none => rw [hcc] at h; exact absurd h (by simp)
    | some cs =>
      rw [hcc] at h
      simp only [] at h
      have hprops := createChunks_props _ text f p "sentences" cs hcc
      have hsorted : cs.Pairwise (fun a b => a.chunk_index < b.chunk_index) := by
        have hmap := hprops.2
        have hr := List.sorted_lt_range cs.length
        rw [← hmap] at hr
        exact List.pairwise_map.mp hr
      split at h
      · have he : mergeSmallChunks
            (max 100 ((advisorState s text auto).chunk_size / 10)) cs = chunks :=
          Option.some_inj.mp h
        subst he
        exact mergeSmallChunks_sorted _ cs hsorted
      · have he : cs = chunks := Option.some_inj.mp h
        subst he
        exact hsorted

theorem chunkMultiplePages_cons (f : String) (a : Bool) (s : Chunker)
    (n : Nat) (t : List Char) (rest : List (Nat × List Char)) :
    chunkMultiplePages f a s ((n, t) :: rest) =
      if isBlankPy t then chunkMultiplePages f a s rest
      else
        match chunkDocument s t f (some n) a with
        | (none, s1) => (none, s1)
        | (some cs, s1) =>
          match chunkMultiplePages f a s1 rest with
          | (none, s2) => (none, s2)
          | (some more, s2) => (some (cs ++ more), s2) := rfl

-- Skipping blank pages is the same as filtering them away first.
theorem chunkMultiplePages_filter (f : String) (a : Bool) :
    ∀ (pages : List (Nat × List Char)) (s : Chunker),
      chunkMultiplePages f a s pages
        = chunkMultiplePages f a s (pages.filter (fun pg => !isBlankPy pg.2)) := by
  intro pages
  induction pages with
  | nil => intro s; rfl
  | cons pg rest ih =>
    intro s
    rcases pg with ⟨n, t⟩
    by_cases hb : isBlankPy t
    · rw [chunkMultiplePages_cons, if_pos hb]
      rw [List.filter_cons]
      simp only [hb, Bool.not_true, Bool.false_eq_true, if_false]
      exact ih s
    · have hb2 : (!isBlankPy t) = true := by simp [hb]
      rw [List.filter_cons, if_pos hb2]
      rw [chunkMultiplePages_cons, if_neg hb, chunkMultiplePages_cons, if_neg hb]
      cases hcd : chunkDocument s t f (some n) a with
      | mk o s1 =>
        cases o with
        | none => rfl
        | some cs =>
          show (match chunkMultiplePages f a s1 rest with
                | (none, s2) => (none, s2)
                | (some more, s2) => (some (cs ++ more), s2)) =
              (match chunkMultiplePages f a s1 (List.filter (fun pg => !isBlankPy pg.2) rest) with
                | (none, s2) => (none, s2)
                | (some more, s2) => (some (cs ++ more), s2))
          rw [ih s1]

-- Every chunk a multi-page run returns carries the page number of the
-- (non-blank) page it was produced from.
theorem chunkMultiplePages_pages (f : String) (a : Bool) :
    ∀ (pages : List (Nat × List Char)) (s : Chunker) (l : List Chunk),
      (chunkMultiplePages f a s pages).1 = some l →
      ∀ c ∈ l, ∃ pg ∈ pages, isBlankPy pg.2 = false ∧ c.page_number = some pg.1 := by
  intro pages
  induction pages with
  | nil =>
    intro s l h c hc
    have he : l = [] := (Option.some_inj.mp h).symm
    subst he
    exact absurd hc (List.not_mem_nil c)
  | cons pg rest ih =>
    intro s l h c hc
    rcases pg with ⟨n, t⟩
    rw [chunkMultiplePages_cons] at h
    by_cases hb : isBlankPy t
    · rw [if_pos hb] at h
      rcases ih s l h c hc with ⟨pg2, hpg2, hprops⟩
      exact ⟨pg2, by simp [hpg2], hprops⟩
    · rw [if_neg hb] at h
      cases hcd : chunkDocument s t f (some n) a with
      | mk o s1 =>
        rw [hcd] at h
        cases o with
        | none => exact absurd h (by simp)
        | some cs =>
          have h2 : (match chunkMultiplePages f a s1 rest with
              | (none, s2) => (none, s2)
              | (some more, s2) => (some (cs ++ more), s2)).1 = some l := h
          cases hrec : (chunkMultiplePages f a s1 rest) with
          | mk o2 s2 =>
            rw [hrec] at h2
            cases o2 with
            | none =>
              have h3 : (none : Option (List Chunk)) = some l := h2
              exact absurd h3 (by simp)
            | some more =>
              have he : cs ++ more = l := Option.some_inj.mp h2
              subst he
              rcases List.mem_append.mp hc with hc1 | hc2
              · have hp := chunkDocument_chunks_props s t f (some n) a cs
                  (by rw [hcd]) c hc1
                refine ⟨(n, t), by simp, by simpa using hb, hp.2.2⟩
              · rcases ih s1 more (by rw [hrec]) c hc2 with ⟨pg2, hpg2, hprops⟩
                exact ⟨pg2, by simp [hpg2], hprops⟩

-- A two-page run is the sequential composition of the two per-page
-- chunk_document calls, the second starting from the state the first
-- left behind.
theorem chunkMultiplePages_two (f : String) (a : Bool) (s : Chunker)
    (n1 n2 : Nat) (t1 t2 : List Char) (cs1 cs2 : List Chunk) (s1 s2 : Chunker)
    (hb1 : isBlankPy t1 = false) (hb2 : isBlankPy t2 = false)
    (h1 : chunkDocument s t1 f (some n1) a = (some cs1, s1))
    (h2 : chunkDocument s1 t2 f (some n2) a = (some cs2, s2)) :
    chunkMultiplePages f a s [(n1, t1), (n2, t2)] = (some (cs1 ++ cs2), s2) := by
  rw [chunkMultiplePages_cons, if_neg (by simp [hb1]), h1]
  show (match chunkMultiplePages f a s1 [(n2, t2)] with
        | (none, s2) => (none, s2)
        | (some more, s2) => (some (cs1 ++ more), s2)) = (some (cs1 ++ cs2), s2)
  rw [chunkMultiplePages_cons, if_neg (by simp [hb2]), h2]
  show (some (cs1 ++ (cs2 ++ [])), s2) = (some (cs1 ++ cs2), s2)
  rw [List.append_nil]

-- Termination of the page loop: every page call terminates when the
-- overlap stays below the (auto-optimised) size.
theorem chunkMultiplePages_isSome (f : String) (a : Bool) :
    ∀ (pages : List (Nat × List Char)) (s : Chunker),
      (if a then s.chunk_overlap < 500 else s.chunk_overlap < s.chunk_size) →
      ((chunkMultiplePages f a s pages).1).isSome = true := by
  intro pages
  induction pages with
  | nil => intro s h; rfl
  | cons pg rest ih =>
    intro s h
    rcases pg with ⟨n, t⟩
    rw [chunkMultiplePages_cons]
    by_cases hb : isBlankPy t
    · rw [if_pos hb]
      exact ih s h
    · rw [if_neg hb]
      have hds := chunkDocument_isSome s t f (some n) a (advisorState_valid s t a h)
      cases hcd : chunkDocument s t f (some n) a with
      | mk o s1 =>
        rw [hcd] at hds
        cases o with
        | none => exact absurd hds (by simp)
        | some cs =>
          have hs1 : if a then s1.chunk_overlap < 500
              else s1.chunk_overlap < s1.chunk_size := by
            have hb2 : isBlankPy t = false := by simpa using hb
            have hsnd : (chunkDocument s t f (some n) a).2 = advisorState s t a :=
              chunkDocument_snd s t f (some n) a hb2
            rw [hcd] at hsnd
            simp only [] at hsnd
            subst hsnd
            cases a with
            | false => simpa using h
            | true =>
              simp only [if_true] at h ⊢
              rw [advisorState_overlap]
              exact h
          have hrs := ih s1 hs1
          show ((match chunkMultiplePages f a s1 rest with
              | (none, s2) => (none, s2)
              | (some more, s2) => (some (cs ++ more), s2)).1).isSome = true
          cases hrec : chunkMultiplePages f a s1 rest with
          | mk o2 s2 =>
            rw [hrec] at hrs
            cases o2 with
            | none => exact absurd hrs (by simp)
            | some more => rfl

-- With auto-optimisation the advisor overwrites chunk_size before any
-- reading, so the result does not depend on the incoming chunk_size.
theorem chunkDocument_auto_congr (s s2 : Chunker) (text : List Char) (f : String)
    (p : Option Nat) (hb : isBlankPy text = false)
    (ho : s.chunk_overlap = s2.chunk_overlap)
    (he : s.encoding_name = s2.encoding_name) :
    chunkDocument s text f p true = chunkDocument s2 text f p true := by
  have hadv : advisorState s text true = advisorState s2 text true := by
    unfold advisorState
    cases s
    cases s2
    simp_all
  unfold chunkDocument
  rw [hb, hadv]
  simp only [Bool.false_eq_true, if_false]

theorem chunkMultiplePages_insensitive (f : String) :
    ∀ (pages : List (Nat × List Char)) (s s2 : Chunker),
      s.chunk_overlap = s2.chunk_overlap → s.encoding_name = s2.encoding_name →
      (chunkMultiplePages f true s pages).1 = (chunkMultiplePages f true s2 pages).1 := by
  intro pages
  induction pages with
  | nil => intro s s2 _ _; rfl
  | cons pg rest ih =>
    intro s s2 ho he
    rcases pg with ⟨n, t⟩
    rw [chunkMultiplePages_cons, chunkMultiplePages_cons]
    by_cases hb : isBlankPy t
    · rw [if_pos hb, if_pos hb]
      exact ih s s2 ho he
    · rw [if_neg hb, if_neg hb]
      rw [chunkDocument_auto_congr s s2 t f (some n) (by simpa using hb) ho he]

theorem chunkDocument_snd_size (s : Chunker) (text : List Char) (f : String)
    (p : Option Nat) (hb : isBlankPy text = false) :
    (chunkDocument s text f p true).2.chunk_size
      = calculateOptimalChunkSize (countTokens text) := by
  rw [chunkDocument_snd s text f p true hb]
  rfl

-- token count and non-blankness of the canonical n-token text
theorem nTokenText_count (n : Nat) : countTokens (nTokenText n) = n := by
  unfold nTokenText countTokens
  rw [words_joinWords]
  · simp
  · intro w hw
    rw [List.eq_of_mem_replicate hw]
    exact ⟨by simp, by decide⟩

theorem nTokenText_nonblank (n : Nat) (h : 0 < n) :
    isBlankPy (nTokenText n) = false := by
  rw [isBlankPy_false_iff]
  unfold nTokenText
  rw [words_joinWords]
  · simp
    omega
  · intro w hw
    rw [List.eq_of_mem_replicate hw]
    exact ⟨by simp, by decide⟩

/- ------------------------------------------------------------------
   Claim theorems
   ------------------------------------------------------------------ -/

/-- Claim C1, counterexample: a chunk_by_tokens call whose effective
configuration has chunk_overlap = chunk_size = 100 is not rejected and
reports no failure: it processes the text and returns it as one chunk.
The embedded function has no failure value at all, faithfully to the
source, which performs no configuration validation. -/
theorem c1_invalid_config_not_rejected_counterexample :
    chunkByTokensPy ⟨100, 100, "cl100k_base"⟩ "Hello world.".toList none none
      = some ["Hello world.".toList] := by
  decide

/-- Claim C1, amended: no configuration validation is performed and no
named failure is ever reported.  With chunk_overlap at least chunk_size,
a call on a text of at most chunk_size tokens returns the whole text as
a single chunk, and a call on a longer text never terminates. -/
theorem c1_amended_no_validation :
    (∀ (s : Chunker) (text : List Char),
      s.chunk_size ≤ s.chunk_overlap → isBlankPy text = false →
      0 < countTokens text → countTokens text ≤ s.chunk_size →
      chunkByTokensPy s text none none = some [joinWords (words text)]) ∧
    (∀ (s : Chunker) (text : List Char),
      s.chunk_size ≤ s.chunk_overlap → s.chunk_size < countTokens text →
      chunkByTokensPy s text none none = none) := by
  constructor
  · intro s text hcfg hb hpos hfit
    exact chunkByTokensPy_single s text hb hfit hpos
  · intro s text hcfg hlong
    exact chunkByTokensPy_diverges s text hcfg hlong

set_option maxRecDepth 100000 in
/-- Claim C1, witness for the amended theorem at a concrete invalid
configuration. -/
theorem c1_amended_no_validation_witness :
    chunkByTokensPy ⟨100, 100, "cl100k_base"⟩ "Hello world.".toList none none
        = some [joinWords (words "Hello world.".toList)] ∧
    chunkByTokensPy ⟨100, 100, "cl100k_base"⟩ (nTokenText 150) none none = none :=
  ⟨c1_amended_no_validation.1 ⟨100, 100, "cl100k_base"⟩ "Hello world.".toList
      (by decide) (by decide) (by decide) (by decide),
    c1_amended_no_validation.2 ⟨100, 100, "cl100k_base"⟩ (nTokenText 150)
      (by decide) (by decide)⟩

set_option maxRecDepth 400000 in
/-- Claim C2: for a valid configuration and a text of N positive tokens,
chunk_by_tokens returns ceil((N - overlap) / (size - overlap)) chunks
when N exceeds overlap and one chunk otherwise (specExpectedChunks);
concretely, with size 200 and overlap 50 on a 1000-token text it
returns 7 chunks, every one except the last of exactly 200 tokens. -/
theorem c2_token_window_chunk_count :
    (∀ (s : Chunker) (text : List Char),
      s.chunk_overlap < s.chunk_size → 0 < countTokens text →
      (chunkByTokensPy s text none none).map List.length
        = some (specExpectedChunks (countTokens text) s.chunk_size s.chunk_overlap)) ∧
    ((chunkByTokensPy ⟨200, 50, "cl100k_base"⟩ text1000 none none).map
      (fun l => l.map countTokens) = some [200, 200, 200, 200, 200, 200, 100]) := by
  constructor
  · exact chunkByTokensPy_length
  · decide

/-- Claim C2, witness at a concrete valid configuration. -/
theorem c2_token_window_chunk_count_witness :
    (chunkByTokensPy ⟨3, 1, "cl100k_base"⟩ "a b c d e".toList none none).map List.length
      = some (specExpectedChunks (countTokens "a b c d e".toList) 3 1) :=
  c2_token_window_chunk_count.1 ⟨3, 1, "cl100k_base"⟩ "a b c d e".toList
    (by decide) (by decide)

/-- Claim C3: every chunk chunk_by_sentences returns is of at most
max_size tokens; this covers both accumulator chunks and the windows
produced by delegated splitting of oversized sentences. -/
theorem c3_sentence_chunks_within_max :
    ∀ (s : Chunker) (text : List Char) (maxO : Option Nat) (l : List (List Char)),
      0 < orDefault maxO s.chunk_size →
      chunkBySentencesPy s text maxO = some l →
      ∀ c ∈ l, countTokens c ≤ orDefault maxO s.chunk_size := by
  intro s text maxO l hm h c hc
  exact (chunkBySentencesPy_chunks s text maxO l h c hc).2 (by omega)

/-- Claim C3, witness on a concrete text whose third sentence is
oversized and gets delegated. -/
theorem c3_sentence_chunks_within_max_witness :
    countTokens "A a a. B b.".toList ≤ orDefault none (5 : Nat) :=
  c3_sentence_chunks_within_max ⟨5, 1, "cl100k_base"⟩
    "A a a. B b. C c c c c c c c. D d.".toList none
    ["A a a. B b.".toList, "C c c c c".toList, "c c c c.".toList, "D d.".toList]
    (by decide) (by decide) "A a a. B b.".toList (by decide)

/-- Claim C4: under a valid effective configuration every chunking
operation terminates; a some result of the fuel-based embedding means
the Python loop finishes within token-count many iterations.  For the
auto-optimising entry points the valid-configuration precondition is
chunk_overlap below 500, the least Advisor recommendation. -/
theorem c4_termination :
    (∀ (s : Chunker) (text : List Char) (so oo : Option Nat),
      orDefault oo s.chunk_overlap < orDefault so s.chunk_size →
      (chunkByTokensPy s text so oo).isSome = true) ∧
    (∀ (s : Chunker) (text : List Char) (maxO : Option Nat),
      s.chunk_overlap < orDefault maxO s.chunk_size →
      (chunkBySentencesPy s text maxO).isSome = true) ∧
    (∀ (s : Chunker) (text : List Char) (f : String) (p : Option Nat) (auto : Bool),
      (if auto then s.chunk_overlap < 500 else s.chunk_overlap < s.chunk_size) →
      ((chunkDocument s text f p auto).1).isSome = true) ∧
    (∀ (s : Chunker) (pages : List (Nat × List Char)) (f : String) (auto : Bool),
      (if auto then s.chunk_overlap < 500 else s.chunk_overlap < s.chunk_size) →
      ((chunkMultiplePages f auto s pages).1).isSome = true) := by
  refine ⟨chunkByTokensPy_isSome, chunkBySentencesPy_isSome, ?_, ?_⟩
  · intro s text f p auto h
    exact chunkDocument_isSome s text f p auto (advisorState_valid s text auto h)
  · intro s pages f auto h
    exact chunkMultiplePages_isSome f auto pages s h

/-- Claim C4, witness: all four operations terminate on a concrete
valid instance. -/
theorem c4_termination_witness :
    (chunkByTokensPy chunkerDefault "Hello world.".toList none none).isSome = true ∧
    (chunkBySentencesPy chunkerDefault "Hello world.".toList none).isSome = true ∧
    ((chunkDocument chunkerDefault "Hello world.".toList "f.pdf" none true).1).isSome = true ∧
    ((chunkMultiplePages "f.pdf" true chunkerDefault
      [(1, "Hello world.".toList)]).1).isSome = true :=
  ⟨c4_termination.1 chunkerDefault "Hello world.".toList none none (by decide),
    c4_termination.2.1 chunkerDefault "Hello world.".toList none (by decide),
    c4_termination.2.2.1 chunkerDefault "Hello world.".toList "f.pdf" none true (by decide),
    c4_termination.2.2.2 chunkerDefault [(1, "Hello world.".toList)] "f.pdf" true (by decide)⟩

/-- Claim C5, counterexample: chunk_multiple_pages iterates the mapping
in insertion order, not ascending page-number order: with insertion
order page 2 before page 1, the page-2 chunks come first. -/
theorem c5_insertion_order_counterexample :
    ((chunkMultiplePages "f.pdf" false chunkerDefault
        [(2, "B b.".toList), (1, "A a.".toList)]).1.map
      (fun l => l.map (fun c => c.page_number))) = some [some 2, some 1] ∧
    ([some 2, some 1] : List (Option Nat)) ≠ [some 1, some 2] := by
  constructor
  · decide
  · decide

/-- Claim C5, amended: pages are visited in mapping-enumeration
(insertion) order; blank pages are skipped exactly as if filtered away,
every returned chunk carries the page number of the non-blank page it
came from, and the given concrete example returns only the page-2
chunk. -/
theorem c5_amended_page_iteration :
    (∀ (f : String) (a : Bool) (pages : List (Nat × List Char)) (s : Chunker),
      chunkMultiplePages f a s pages
        = chunkMultiplePages f a s (pages.filter (fun pg => !isBlankPy pg.2))) ∧
    (∀ (f : String) (a : Bool) (pages : List (Nat × List Char)) (s : Chunker)
       (l : List Chunk),
      (chunkMultiplePages f a s pages).1 = some l →
      ∀ c ∈ l, ∃ pg ∈ pages, isBlankPy pg.2 = false ∧ c.page_number = some pg.1) ∧
    ((chunkMultiplePages "f.pdf" false chunkerDefault
        [(1, "".toList), (2, "Some text.".toList)]).1.map
      (fun l => l.map (fun c => (c.page_number, c.text))))
      = some [(some 2, "Some text.".toList)] := by
  refine ⟨fun f a pages s => chunkMultiplePages_filter f a pages s,
    fun f a pages s => chunkMultiplePages_pages f a pages s, by decide⟩

/-- Claim C5, witness for the amended theorem: the single chunk of the
concrete example comes from non-blank page 2. -/
theorem c5_amended_page_iteration_witness :
    ∃ pg ∈ [(1, "".toList), (2, "Some text.".toList)],
      isBlankPy pg.2 = false ∧
      (mkChunk "Some text.".toList 0 "f.pdf" (some 2) "sentences").page_number
        = some pg.1 :=
  c5_amended_page_iteration.2.1 "f.pdf" false
    [(1, "".toList), (2, "Some text.".toList)] chunkerDefault
    [mkChunk "Some text.".toList 0 "f.pdf" (some 2) "sentences"]
    (by decide) (mkChunk "Some text.".toList 0 "f.pdf" (some 2) "sentences") (by decide)

/-- Claim C6, counterexample: within one chunk_multiple_pages call with
auto-optimization, the Advisor runs once per page, not once per
document: a 600-token page 1 is chunked with active size 500 while the
2500-token page 2 of the same call is chunked with active size 1000,
and the second per-page call is exactly the one the page loop makes
(its incoming state is the state page 1 left behind). -/
theorem c6_advisor_per_page_counterexample :
    (chunkDocument chunkerDefault (nTokenText 600) "f.pdf" (some 1) true).2.chunk_size
      = 500 ∧
    (chunkDocument ((chunkDocument chunkerDefault (nTokenText 600) "f.pdf"
        (some 1) true).2) (nTokenText 2500) "f.pdf" (some 2) true).2.chunk_size
      = 1000 ∧
    (chunkMultiplePages "f.pdf" true chunkerDefault
        [(1, nTokenText 600), (2, nTokenText 2500)]).2
      = (chunkDocument ((chunkDocument chunkerDefault (nTokenText 600) "f.pdf"
          (some 1) true).2) (nTokenText 2500) "f.pdf" (some 2) true).2 := by
  have hb1 : isBlankPy (nTokenText 600) = false := nTokenText_nonblank 600 (by omega)
  have hb2 : isBlankPy (nTokenText 2500) = false := nTokenText_nonblank 2500 (by omega)
  have h1size : (chunkDocument chunkerDefault (nTokenText 600) "f.pdf"
      (some 1) true).2.chunk_size = 500 := by
    rw [chunkDocument_snd_size chunkerDefault (nTokenText 600) "f.pdf" (some 1) hb1,
      nTokenText_count]
    decide
  have h2size : (chunkDocument ((chunkDocument chunkerDefault (nTokenText 600) "f.pdf"
      (some 1) true).2) (nTokenText 2500) "f.pdf" (some 2) true).2.chunk_size = 1000 := by
    rw [chunkDocument_snd_size _ (nTokenText 2500) "f.pdf" (some 2) hb2,
      nTokenText_count]
    decide
  refine ⟨h1size, h2size, ?_⟩
  have hov : ((chunkDocument chunkerDefault (nTokenText 600) "f.pdf"
      (some 1) true).2).chunk_overlap = 200 := by
    rw [chunkDocument_snd chunkerDefault (nTokenText 600) "f.pdf" (some 1) true hb1,
      advisorState_overlap]
    rfl
  have hs1 := chunkDocument_isSome chunkerDefault (nTokenText 600) "f.pdf" (some 1) true
    (advisorState_valid chunkerDefault (nTokenText 600) true (by decide))
  rcases Option.isSome_iff_exists.mp hs1 with ⟨cs1, hcs1⟩
  have hs2 := chunkDocument_isSome
    ((chunkDocument chunkerDefault (nTokenText 600) "f.pdf" (some 1) true).2)
    (nTokenText 2500) "f.pdf" (some 2) true
    (advisorState_valid _ (nTokenText 2500) true
      (by
        show ((chunkDocument chunkerDefault (nTokenText 600) "f.pdf"
          (some 1) true).2).chunk_overlap < 500
        rw [hov]
        omega))
  rcases Option.isSome_iff_exists.mp hs2 with ⟨cs2, hcs2⟩
  have hpair1 : chunkDocument chunkerDefault (nTokenText 600) "f.pdf" (some 1) true
      = (some cs1,
        (chunkDocument chunkerDefault (nTokenText 600) "f.pdf" (some 1) true).2) := by
    rw [← hcs1]
  have hpair2 : chunkDocument
      ((chunkDocument chunkerDefault (nTokenText 600) "f.pdf" (some 1) true).2)
      (nTokenText 2500) "f.pdf" (some 2) true
      = (some cs2,
        (chunkDocument ((chunkDocument chunkerDefault (nTokenText 600) "f.pdf"
          (some 1) true).2) (nTokenText 2500) "f.pdf" (some 2) true).2) := by
    rw [← hcs2]
  rw [chunkMultiplePages_two "f.pdf" true chunkerDefault 1 2
    (nTokenText 600) (nTokenText 2500) cs1 cs2 _ _ hb1 hb2 hpair1 hpair2]

/-- Claim C6, amended: with auto-optimization the Advisor runs once per
chunk_document call, hence once per page: the chunks produced by a
multi-page run do not depend on the incoming chunk_size at all, and the
state in effect after (and during) each page holds the Advisor value
for that page's own text. -/
theorem c6_amended_advisor_per_page :
    (∀ (f : String) (pages : List (Nat × List Char)) (s s2 : Chunker),
      s.chunk_overlap = s2.chunk_overlap → s.encoding_name = s2.encoding_name →
      (chunkMultiplePages f true s pages).1 = (chunkMultiplePages f true s2 pages).1) ∧
    (∀ (s : Chunker) (text : List Char) (f : String) (p : Option Nat),
      isBlankPy text = false →
      (chunkDocument s text f p true).2.chunk_size
        = calculateOptimalChunkSize (countTokens text)) := by
  constructor
  · intro f pages s s2 ho he
    exact chunkMultiplePages_insensitive f pages s s2 ho he
  · intro s text f p hb
    exact chunkDocument_snd_size s text f p hb

/-- Claim C6, witness for the amended theorem. -/
theorem c6_amended_advisor_per_page_witness :
    (chunkMultiplePages "f.pdf" true (⟨1, 200, "cl100k_base"⟩ : Chunker)
        [(1, "Hello world.".toList)]).1
      = (chunkMultiplePages "f.pdf" true (⟨9999, 200, "cl100k_base"⟩ : Chunker)
        [(1, "Hello world.".toList)]).1 ∧
    (chunkDocument chunkerDefault "Hello world.".toList "f.pdf" none true).2.chunk_size
      = calculateOptimalChunkSize (countTokens "Hello world.".toList) :=
  ⟨c6_amended_advisor_per_page.1 "f.pdf" [(1, "Hello world.".toList)]
      ⟨1, 200, "cl100k_base"⟩ ⟨9999, 200, "cl100k_base"⟩ rfl rfl,
    c6_amended_advisor_per_page.2 chunkerDefault "Hello world.".toList "f.pdf" none
      (by decide)⟩

set_option maxRecDepth 400000 in
/-- Claim C7, counterexample: chunk_document with auto_optimize on a
591-token text (a 90-word sentence followed by an oversized 501-word
sentence) merges the first undersized chunk into its neighbour and
returns chunks whose indices are 0 and 2: chunk_index values after
merging are inherited, not renumbered, hence not contiguous. -/
theorem c7_merge_index_gap_counterexample :
    ((chunkDocument chunkerDefault c7text "f.pdf" none true).1.map
      (fun l => l.map (fun c => c.chunk_index))) = some [0, 2] ∧
    ([0, 2] : List Nat) ≠ [0, 1] := by
  constructor
  · decide
  · decide

/-- Claim C7, amended: every chunk sequence returned carries the
recomputed token count of its own text and no blank text; create_chunks
returns contiguous indices starting at 0, while chunk_document with
auto_optimize returns strictly increasing indices that may be
non-contiguous after merging. -/
theorem c7_amended_chunk_invariants :
    (∀ (s : Chunker) (text : List Char) (f : String) (p : Option Nat)
       (strategy : String) (chunks : List Chunk),
      createChunks s text f p strategy = some chunks →
      (∀ c ∈ chunks, c.token_count = countTokens c.text ∧ isBlankPy c.text = false) ∧
      chunks.map (fun c => c.chunk_index) = List.range chunks.length) ∧
    (∀ (s : Chunker) (text : List Char) (f : String) (p : Option Nat)
       (chunks : List Chunk),
      (chunkDocument s text f p true).1 = some chunks →
      (∀ c ∈ chunks, c.token_count = countTokens c.text ∧ isBlankPy c.text = false) ∧
      chunks.Pairwise (fun a b => a.chunk_index < b.chunk_index)) := by
  constructor
  · intro s text f p strategy chunks h
    have hp := createChunks_props s text f p strategy chunks h
    exact ⟨fun c hc => ⟨(hp.1 c hc).1, (hp.1 c hc).2.1⟩, hp.2⟩
  · intro s text f p chunks h
    exact ⟨fun c hc => ⟨(chunkDocument_chunks_props s text f p true chunks h c hc).1,
        (chunkDocument_chunks_props s text f p true chunks h c hc).2.1⟩,
      chunkDocument_chunks_sorted s text f p true chunks h⟩

/-- Claim C7, witness for the amended theorem at a concrete input. -/
theorem c7_amended_chunk_invariants_witness :
    (mkChunk "Hello world.".toList 0 "f.pdf" none "sentences").token_count
      = countTokens (mkChunk "Hello world.".toList 0 "f.pdf" none "sentences").text :=
  ((c7_amended_chunk_invariants.1 chunkerDefault "Hello world.".toList "f.pdf" none
      "sentences" [mkChunk "Hello world.".toList 0 "f.pdf" none "sentences"]
      (by decide)).1 (mkChunk "Hello world.".toList 0 "f.pdf" none "sentences")
      (by decide)).1

/-- Claim C8: when every chunk already has at least min_size tokens,
merge_small_chunks keeps each chunk unchanged and advances one
position, returning the input list unchanged, so the pass is idempotent
on compliant input. -/
theorem c8_merge_idempotent_on_compliant (minSize : Nat) (chunks : List Chunk)
    (h : ∀ c ∈ chunks, minSize ≤ c.token_count) :
    mergeSmallChunks minSize chunks = chunks :=
  mergeSmallChunks_id minSize chunks h

/-- Claim C8, witness on a concrete compliant chunk list. -/
theorem c8_merge_idempotent_on_compliant_witness :
    mergeSmallChunks 1 [mkChunk "Hello world.".toList 0 "f.pdf" none "tokens"]
      = [mkChunk "Hello world.".toList 0 "f.pdf" none "tokens"] :=
  c8_merge_idempotent_on_compliant 1
    [mkChunk "Hello world.".toList 0 "f.pdf" none "tokens"] (by decide)

/-- Claim C9: for a non-blank text, chunk_document with auto_optimize
overwrites the instance chunk_size with the Advisor recommendation for
the text's token count, and this state is the one handed to subsequent
calls; with auto_optimize off the instance state is returned
unchanged. -/
theorem c9_auto_optimize_mutation (s : Chunker) (text : List Char) (f : String)
    (p : Option Nat) :
    (isBlankPy text = false →
      (chunkDocument s text f p true).2
        = { s with chunk_size := calculateOptimalChunkSize (countTokens text) }) ∧
    (chunkDocument s text f p false).2 = s := by
  constructor
  · intro hb
    rw [chunkDocument_snd s text f p true hb]
    rfl
  · by_cases hb : isBlankPy text
    · exact chunkDocument_snd_blank s text f p false hb
    · rw [chunkDocument_snd s text f p false (by simpa using hb)]
      rfl

/-- Claim C9, witness at a concrete text of 2 tokens. -/
theorem c9_auto_optimize_mutation_witness :
    (chunkDocument chunkerDefault "Hello world.".toList "f.pdf" none true).2
        = (⟨500, 200, "cl100k_base"⟩ : Chunker) ∧
    (chunkDocument chunkerDefault "Hello world.".toList "f.pdf" none false).2
        = chunkerDefault :=
  ⟨(c9_auto_optimize_mutation chunkerDefault "Hello world.".toList "f.pdf" none).1
      (by decide),
    (c9_auto_optimize_mutation chunkerDefault "Hello world.".toList "f.pdf" none).2⟩

/-- Claim C10: a per-call override argument equal to 0 behaves exactly
as if the override had been omitted, for both the chunk_size and the
chunk_overlap argument of chunk_by_tokens, because the source defaults
them with a Python or-expression and 0 is falsy; zero-overlap splitting
therefore cannot be requested through the override. -/
theorem c10_zero_override_uses_default (s : Chunker) (text : List Char)
    (so oo : Option Nat) :
    chunkByTokensPy s text (some 0) oo = chunkByTokensPy s text none oo ∧
    chunkByTokensPy s text so (some 0) = chunkByTokensPy s text so none := by
  constructor <;> rfl
